import Mathlib

/-!
Verification of the lexicon-based sentiment analysis core
(`preprocess_text` and `analyze_sentiment`) against its specification.

The Python source is shallowly embedded: strings are processed as
`List Char`, Python `re.sub`, `str.split`, `str.strip` become explicit
recursive functions, the Python dict accumulating emotion counts becomes
an association list with update-or-append semantics, and float arithmetic
is modelled with exact rationals (`ℚ`), with `round(x, 2)` modelled as
round-half-to-even at two decimal places, matching Python's banker's
rounding at exact ties.
-/

namespace SentimentAnalysis

/-! ### Lexicons (module-level constants of the source) -/

def POSITIVE_WORDS : List String :=
  ["good", "great", "excellent", "amazing", "wonderful", "fantastic",
   "love", "loved", "best", "awesome", "perfect", "beautiful", "happy",
   "excited", "joy", "brilliant", "outstanding", "superb", "pleased",
   "delighted", "satisfied", "impressive", "remarkable", "incredible",
   "exceptional", "magnificent", "terrific", "fabulous", "marvelous",
   "splendid", "enjoy", "enjoyed", "positive", "recommendation"]

def NEGATIVE_WORDS : List String :=
  ["bad", "terrible", "awful", "horrible", "worst", "hate", "hated",
   "poor", "disappointing", "disappointed", "sad", "angry", "frustrated",
   "annoyed", "upset", "pathetic", "useless", "waste", "disgusting",
   "appalling", "dreadful", "inferior", "substandard", "defective",
   "faulty", "broken", "damaged", "failed", "failure", "regret", "unhappy",
   "negative", "dissatisfied"]

def EMOTION_LEXICON : List (String × List String) :=
  [("joy", ["happy", "joy", "excited", "delighted", "cheerful", "pleased",
            "glad", "enjoy", "wonderful", "fantastic", "amazing"]),
   ("sadness", ["sad", "unhappy", "disappointed", "depressed", "miserable",
                "gloomy", "sorrow", "grief", "heartbroken"]),
   ("anger", ["angry", "mad", "furious", "annoyed", "irritated", "frustrated",
              "hate", "rage", "outraged", "hostile"]),
   ("fear", ["afraid", "scared", "worried", "anxious", "nervous", "terrified",
             "fearful", "panic", "dread"]),
   ("surprise", ["surprised", "amazed", "shocked", "astonished", "unexpected",
                 "stunning", "wow", "incredible"])]

def STOPWORDS : List String :=
  ["the", "is", "at", "which", "on", "a", "an", "as", "are", "was", "were",
   "been", "be", "have", "has", "had", "do", "does", "did", "will", "would",
   "could", "should", "may", "might", "must", "can", "this", "that", "these",
   "those", "i", "you", "he", "she", "it", "we", "they", "them", "their",
   "what", "when", "where", "who", "why", "how", "all", "each", "every",
   "both", "few", "more", "most", "other", "some", "such", "no", "nor",
   "not", "only", "own", "same", "so", "than", "too", "very", "to", "of",
   "in", "for", "with", "by", "from"]

/-! ### Text preprocessing (`preprocess_text`) -/

/-- The `\s` character class of Python's `re` on ASCII input. -/
def pyIsSpace (c : Char) : Bool :=
  c = ' ' || c = '\t' || c = '\n' || c = '\r' || c = '\x0b' || c = '\x0c'

/-- The `\w` character class of Python's `re` on ASCII input:
letters, digits, and underscore. -/
def pyIsWord (c : Char) : Bool :=
  c.isAlphanum || c = '_'

/-- `re.sub(r'[^\w\s]', ' ', text)`: every character that is neither a word
character nor whitespace becomes a single space. -/
def removeSpecial (l : List Char) : List Char :=
  l.map fun c => if pyIsWord c || pyIsSpace c then c else ' '

/-- `re.sub(r'\s+', ' ', text)`: each maximal whitespace run becomes one
space.  The Boolean flag records whether the previous character was part of
a whitespace run already replaced. -/
def collapseAux : Bool → List Char → List Char
  | _, [] => []
  | prevSp, c :: rest =>
    if pyIsSpace c then
      if prevSp then collapseAux true rest else ' ' :: collapseAux true rest
    else
      c :: collapseAux false rest

/-- Remove trailing whitespace (the right half of `str.strip()`). -/
def rstrip : List Char → List Char
  | [] => []
  | c :: rest =>
    match rstrip rest with
    | [] => if pyIsSpace c then [] else [c]
    | a :: r => c :: a :: r

/-- `str.strip()`: drop leading and trailing whitespace. -/
def stripWs (l : List Char) : List Char :=
  rstrip (l.dropWhile pyIsSpace)

/-- Accumulator-based splitter behind `str.split()` (split on whitespace
runs, discarding empty pieces); `cur` is the reversed current word. -/
def splitAux : List Char → List Char → List (List Char)
  | [], [] => []
  | a :: cur, [] => [(a :: cur).reverse]
  | cur, c :: rest =>
    if pyIsSpace c then
      match cur with
      | [] => splitAux [] rest
      | a :: cur' => (a :: cur').reverse :: splitAux [] rest
    else
      splitAux (c :: cur) rest

/-- `str.split()` with no separator argument. -/
def pySplit (l : List Char) : List (List Char) :=
  splitAux [] l

/-- The token filter of `preprocess_text`:
`token not in STOPWORDS and len(token) > 2`. -/
def keepToken (t : String) : Bool :=
  !(STOPWORDS.contains t) && decide (2 < t.length)

structure PreprocessedText where
  original : String
  cleaned : String
  tokens : List String
  word_count : Nat
  token_count : Nat
deriving DecidableEq, Repr

/-- Embedding of `preprocess_text`. -/
def preprocess_text (text : String) : PreprocessedText :=
  let lowered := text.toList.map Char.toLower
  let substituted := removeSpecial lowered
  let cleanedL := stripWs (collapseAux false substituted)
  let rawTokens := (pySplit cleanedL).map fun w => String.mk w
  let filtered := rawTokens.filter keepToken
  { original := text
    cleaned := String.mk cleanedL
    tokens := filtered
    word_count := rawTokens.length
    token_count := filtered.length }

/-! ### Sentiment analysis (`analyze_sentiment`) -/

inductive Sentiment where
  | positive
  | negative
  | neutral
deriving DecidableEq, Repr

/-- Python dict of `str → int` counts, as an association list; insertion
order is preserved, updates happen in place, new keys append at the end. -/
abbrev EmotionDict := List (String × Nat)

/-- `d[k] = d.get(k, 0) + 1` on a Python dict. -/
def dictIncr : EmotionDict → String → EmotionDict
  | [], k => [(k, 1)]
  | (k', v) :: rest, k =>
    if k' = k then (k', v + 1) :: rest else (k', v) :: dictIncr rest k

/-- The inner loop over `EMOTION_LEXICON.items()` for one token. -/
def stepEmotions (d : EmotionDict) (token : String) : EmotionDict :=
  EMOTION_LEXICON.foldl
    (fun d p => if p.2.contains token then dictIncr d p.1 else d) d

structure ScoreState where
  positive_score : Nat
  negative_score : Nat
  detected_emotions : EmotionDict
deriving DecidableEq, Repr

/-- The body of `for token in tokens` in `analyze_sentiment`. -/
def stepToken (st : ScoreState) (token : String) : ScoreState :=
  { positive_score :=
      if POSITIVE_WORDS.contains token then st.positive_score + 1
      else st.positive_score
    negative_score :=
      if NEGATIVE_WORDS.contains token then st.negative_score + 1
      else st.negative_score
    detected_emotions := stepEmotions st.detected_emotions token }

/-- The whole token loop of `analyze_sentiment`. -/
def scanTokens (tokens : List String) : ScoreState :=
  tokens.foldl stepToken ⟨0, 0, []⟩

/-- Round to the nearest integer, ties to the even integer, as Python's
built-in `round` does. -/
def roundEven (x : ℚ) : ℤ :=
  if x - ⌊x⌋ < 1 / 2 then ⌊x⌋
  else if 1 / 2 < x - ⌊x⌋ then ⌊x⌋ + 1
  else if ⌊x⌋ % 2 = 0 then ⌊x⌋ else ⌊x⌋ + 1

/-- Python's `round(x, 2)` (round half to even at two decimals; exact on ℚ). -/
def round2 (q : ℚ) : ℚ :=
  (roundEven (q * 100) : ℚ) / 100

structure SentimentResult where
  sentiment : Sentiment
  confidence : ℚ
  positive_score : Nat
  negative_score : Nat
  emotions : List (String × ℚ)
  keywords_positive : List String
  keywords_negative : List String
deriving DecidableEq, Repr

/-- Embedding of `analyze_sentiment`. -/
def analyze_sentiment (tokens : List String) : SentimentResult :=
  let st := scanTokens tokens
  let total_score := st.positive_score + st.negative_score
  let sc : Sentiment × ℚ :=
    if total_score = 0 then (Sentiment.neutral, 50)
    else
      let positive_ratio : ℚ := (st.positive_score : ℚ) / (total_score : ℚ)
      if positive_ratio > 0.6 then
        (Sentiment.positive, min (60 + (positive_ratio - 0.6) * 150) 98)
      else if positive_ratio < 0.4 then
        (Sentiment.negative, min (60 + (0.4 - positive_ratio) * 150) 98)
      else
        (Sentiment.neutral, 50 + |positive_ratio - 0.5| * 100)
  let total_emotions := (st.detected_emotions.map Prod.snd).sum
  let emotion_scores : List (String × ℚ) :=
    if 0 < total_emotions then
      st.detected_emotions.map fun p =>
        (p.1, min (((p.2 : ℚ) / (total_emotions : ℚ)) * 100) 95)
    else []
  { sentiment := sc.1
    confidence := round2 sc.2
    positive_score := st.positive_score
    negative_score := st.negative_score
    emotions := emotion_scores
    keywords_positive := tokens.filter fun t => POSITIVE_WORDS.contains t
    keywords_negative := tokens.filter fun t => NEGATIVE_WORDS.contains t }

/-! ### Derived counting functions used to state the claims -/

/-- Number of tokens matching the positive lexicon. -/
def posCount (ts : List String) : Nat :=
  ts.countP fun t => POSITIVE_WORDS.contains t

/-- Number of tokens matching the negative lexicon. -/
def negCount (ts : List String) : Nat :=
  ts.countP fun t => NEGATIVE_WORDS.contains t

/-- Association-list lookup with the equality test spelled out. -/
def lookupStr {α : Type} : List (String × α) → String → Option α
  | [], _ => none
  | (k, v) :: rest, e => if k = e then some v else lookupStr rest e

/-- The word list of one emotion (empty for an unknown emotion name). -/
def emWords (e : String) : List String :=
  (lookupStr EMOTION_LEXICON e).getD []

/-- Raw match count of one emotion over a token sequence. -/
def hitCount (ts : List String) (e : String) : Nat :=
  ts.countP fun t => (emWords e).contains t

/-- Sum of all per-emotion raw match counts. -/
def totalHits (ts : List String) : Nat :=
  (EMOTION_LEXICON.map fun p => hitCount ts p.1).sum

/-- Lookup in the emotion-count dict, with 0 as Python's `.get(e, 0)` default. -/
def dGet : EmotionDict → String → Nat
  | [], _ => 0
  | (k, v) :: rest, e => if k = e then v else dGet rest e

/-! ### Lemmas and claim theorems -/

theorem splitAux_nil_nil : splitAux [] [] = [] := rfl

theorem splitAux_cons_nil (a : Char) (cur : List Char) :
    splitAux (a :: cur) [] = [(a :: cur).reverse] := rfl

theorem splitAux_sp_nil {c : Char} (hc : pyIsSpace c = true) (rest : List Char) :
    splitAux [] (c :: rest) = splitAux [] rest := by
  simp [splitAux, hc]

theorem splitAux_sp_cons {c : Char} (hc : pyIsSpace c = true) (a : Char)
    (cur : List Char) (rest : List Char) :
    splitAux (a :: cur) (c :: rest) = (a :: cur).reverse :: splitAux [] rest := by
  simp [splitAux, hc]

theorem splitAux_nonsp {c : Char} (hc : pyIsSpace c = false) (cur rest : List Char) :
    splitAux cur (c :: rest) = splitAux (c :: cur) rest := by
  cases cur <;> simp [splitAux, hc]

theorem collapseAux_nil (b : Bool) : collapseAux b [] = [] := rfl

theorem collapseAux_sp_true {c : Char} (hc : pyIsSpace c = true) (rest : List Char) :
    collapseAux true (c :: rest) = collapseAux true rest := by
  simp [collapseAux, hc]

theorem collapseAux_sp_false {c : Char} (hc : pyIsSpace c = true) (rest : List Char) :
    collapseAux false (c :: rest) = ' ' :: collapseAux true rest := by
  simp [collapseAux, hc]

theorem collapseAux_nonsp {c : Char} (hc : pyIsSpace c = false) (b : Bool) (rest : List Char) :
    collapseAux b (c :: rest) = c :: collapseAux false rest := by
  cases b <;> simp [collapseAux, hc]

theorem rstrip_nil : rstrip [] = [] := rfl

theorem rstrip_cons_eq_nil {rest : List Char} (h : rstrip rest = []) (c : Char) :
    rstrip (c :: rest) = if pyIsSpace c then [] else [c] := by
  rw [rstrip, h]

theorem rstrip_cons_ne_nil {rest : List Char} {a : Char} {r : List Char}
    (h : rstrip rest = a :: r) (c : Char) :
    rstrip (c :: rest) = c :: a :: r := by
  rw [rstrip, h]

theorem splitAux_dropWhile (l : List Char) :
    splitAux [] (l.dropWhile pyIsSpace) = splitAux [] l := by
  induction l with
  | nil => rfl
  | cons c rest ih =>
    by_cases hc : pyIsSpace c
    · rw [List.dropWhile_cons_of_pos hc, ih, splitAux_sp_nil hc]
    · rw [List.dropWhile_cons_of_neg hc]

theorem splitAux_rstrip (l : List Char) :
    ∀ cur, splitAux cur (rstrip l) = splitAux cur l := by
  induction l with
  | nil => intro cur; rfl
  | cons c rest ih =>
    intro cur
    cases hr : rstrip rest with
    | nil =>
      have hrest : ∀ cur', splitAux cur' ([] : List Char) = splitAux cur' rest := by
        intro cur'; rw [← hr, ih]
      rw [rstrip_cons_eq_nil hr]
      by_cases hc : pyIsSpace c
      · rw [if_pos hc]
        cases cur with
        | nil =>
          rw [splitAux_sp_nil hc, ← hrest]
        | cons a cur' =>
          rw [splitAux_sp_cons hc, ← hrest]
          rfl
      · rw [if_neg hc, splitAux_nonsp (by simpa using hc),
          splitAux_nonsp (by simpa using hc) cur rest, ← hrest, splitAux_cons_nil]
    | cons a r =>
      by_cases hc : pyIsSpace c
      · rw [rstrip_cons_ne_nil hr]
        have h2 : splitAux [] (a :: r) = splitAux [] rest := by rw [← hr, ih]
        cases cur with
        | nil =>
          rw [splitAux_sp_nil hc, splitAux_sp_nil hc, h2]
        | cons b cur' =>
          rw [splitAux_sp_cons hc, splitAux_sp_cons hc, h2]
      · rw [rstrip_cons_ne_nil hr, splitAux_nonsp (by simpa using hc),
          splitAux_nonsp (by simpa using hc) cur rest, ← hr, ih]

theorem splitAux_collapse (l : List Char) :
    (∀ cur, splitAux cur (collapseAux false l) = splitAux cur l) ∧
      (splitAux [] (collapseAux true l) = splitAux [] l) := by
  induction l with
  | nil => exact ⟨fun _ => rfl, rfl⟩
  | cons c rest ih =>
    by_cases hc : pyIsSpace c
    · refine ⟨fun cur => ?_, ?_⟩
      · rw [collapseAux_sp_false hc]
        cases cur with
        | nil =>
          rw [splitAux_sp_nil (by decide), splitAux_sp_nil hc, ih.2]
        | cons a cur' =>
          rw [splitAux_sp_cons (by decide), splitAux_sp_cons hc, ih.2]
      · rw [collapseAux_sp_true hc, splitAux_sp_nil hc, ih.2]
    · have hc' : pyIsSpace c = false := by simpa using hc
      refine ⟨fun cur => ?_, ?_⟩
      · rw [collapseAux_nonsp hc', splitAux_nonsp hc', splitAux_nonsp hc', ih.1]
      · rw [collapseAux_nonsp hc', splitAux_nonsp hc', splitAux_nonsp hc', ih.1]

theorem pySplit_strip_collapse (l : List Char) :
    pySplit (stripWs (collapseAux false l)) = pySplit l := by
  rw [pySplit, stripWs, splitAux_rstrip, splitAux_dropWhile, (splitAux_collapse l).1, pySplit]

theorem splitAux_eq_nil (l : List Char) (h : ∀ c ∈ l, pyIsSpace c = true) :
    splitAux [] l = [] := by
  induction l with
  | nil => rfl
  | cons c rest ih =>
    rw [splitAux_sp_nil (h c (by simp))]
    exact ih fun d hd => h d (by simp [hd])

theorem collapseAux_false_ne_nil (c : Char) (l : List Char) :
    collapseAux false (c :: l) ≠ [] := by
  by_cases hc : pyIsSpace c
  · rw [collapseAux_sp_false hc]; simp
  · rw [collapseAux_nonsp (by simpa using hc)]; simp

theorem collapseAux_comp (l : List Char) :
    collapseAux false (collapseAux false l) = collapseAux false l ∧
      collapseAux true (collapseAux true l) = collapseAux true l := by
  induction l with
  | nil => exact ⟨rfl, rfl⟩
  | cons c rest ih =>
    by_cases hc : pyIsSpace c
    · constructor
      · rw [collapseAux_sp_false hc, collapseAux_sp_false (c := ' ') (by decide), ih.2]
      · rw [collapseAux_sp_true hc, ih.2]
    · have hc' : pyIsSpace c = false := by simpa using hc
      constructor
      · rw [collapseAux_nonsp hc', collapseAux_nonsp hc', ih.1]
      · rw [collapseAux_nonsp hc', collapseAux_nonsp hc', ih.1]

theorem dropWhile_collapseAux (l : List Char) :
    (collapseAux true l).dropWhile pyIsSpace
        = collapseAux true (l.dropWhile pyIsSpace) ∧
      (collapseAux false l).dropWhile pyIsSpace
        = collapseAux true (l.dropWhile pyIsSpace) := by
  induction l with
  | nil => exact ⟨rfl, rfl⟩
  | cons c rest ih =>
    by_cases hc : pyIsSpace c
    · constructor
      · rw [collapseAux_sp_true hc, List.dropWhile_cons_of_pos hc, ih.1]
      · rw [collapseAux_sp_false hc, List.dropWhile_cons_of_pos (by decide),
          List.dropWhile_cons_of_pos hc, ih.1]
    · have hc' : pyIsSpace c = false := by simpa using hc
      constructor
      · rw [collapseAux_nonsp hc', List.dropWhile_cons_of_neg hc,
          List.dropWhile_cons_of_neg hc, collapseAux_nonsp hc']
      · rw [collapseAux_nonsp hc', List.dropWhile_cons_of_neg hc,
          List.dropWhile_cons_of_neg hc, collapseAux_nonsp hc']

theorem rstrip_rstrip (l : List Char) : rstrip (rstrip l) = rstrip l := by
  induction l with
  | nil => rfl
  | cons c rest ih =>
    cases hr : rstrip rest with
    | nil =>
      rw [rstrip_cons_eq_nil hr]
      by_cases hc : pyIsSpace c
      · rw [if_pos hc]; rfl
      · rw [if_neg hc, rstrip_cons_eq_nil rstrip_nil, if_neg hc]
    | cons a r =>
      rw [rstrip_cons_ne_nil hr]
      have har : rstrip (a :: r) = a :: r := by rw [← hr, ih]
      rw [rstrip_cons_ne_nil har]

theorem rstrip_eq_nil_iff (l : List Char) :
    rstrip l = [] ↔ ∀ c ∈ l, pyIsSpace c = true := by
  induction l with
  | nil => simp [rstrip_nil]
  | cons c rest ih =>
    cases hr : rstrip rest with
    | nil =>
      rw [rstrip_cons_eq_nil hr]
      have hrest : ∀ d ∈ rest, pyIsSpace d = true := ih.mp hr
      by_cases hc : pyIsSpace c
      · simp only [hc, if_true, true_iff]
        intro d hd
        rcases List.mem_cons.mp hd with h | h
        · rw [h]; exact hc
        · exact hrest d h
      · simp only [hc]
        constructor
        · intro h
          simp at h
        · intro h
          exact absurd (h c (by simp)) hc
    | cons a r =>
      rw [rstrip_cons_ne_nil hr]
      have hrest : ¬ ∀ d ∈ rest, pyIsSpace d = true := by
        intro h
        rw [ih.mpr h] at hr
        exact List.noConfusion hr
      simp only [List.cons_ne_nil, false_iff]
      intro h
      exact hrest fun d hd => h d (by simp [hd])

theorem collapseAux_true_eq_nil_iff (l : List Char) :
    collapseAux true l = [] ↔ ∀ c ∈ l, pyIsSpace c = true := by
  induction l with
  | nil => simp [collapseAux_nil]
  | cons c rest ih =>
    by_cases hc : pyIsSpace c
    · rw [collapseAux_sp_true hc, ih]
      simp [hc]
    · have hc' : pyIsSpace c = false := by simpa using hc
      rw [collapseAux_nonsp hc']
      simp [hc']

theorem rstrip_collapseAux (l : List Char) (b : Bool) :
    rstrip (collapseAux b l) = collapseAux b (rstrip l) := by
  induction l generalizing b with
  | nil => cases b <;> rfl
  | cons c rest ih =>
    by_cases hc : pyIsSpace c
    · cases hr : rstrip rest with
      | nil =>
        have h1 : rstrip (collapseAux true rest) = [] := by
          rw [ih true, hr]; rfl
        cases b with
        | true =>
          rw [collapseAux_sp_true hc, ih true, hr, rstrip_cons_eq_nil hr, if_pos hc]
        | false =>
          rw [collapseAux_sp_false hc, rstrip_cons_eq_nil h1, if_pos (by decide),
            rstrip_cons_eq_nil hr, if_pos hc]
          rfl
      | cons a r =>
        have har : rstrip (a :: r) = a :: r := by rw [← hr, rstrip_rstrip]
        have hY : rstrip (collapseAux true rest) = collapseAux true (a :: r) := by
          rw [ih true, hr]
        have hYne : collapseAux true (a :: r) ≠ [] := by
          intro h0
          have hall := (collapseAux_true_eq_nil_iff (a :: r)).mp h0
          have : rstrip (a :: r) = [] := (rstrip_eq_nil_iff (a :: r)).mpr hall
          rw [har] at this
          exact List.noConfusion this
        cases b with
        | true =>
          rw [collapseAux_sp_true hc, ih true, hr, rstrip_cons_ne_nil hr,
            collapseAux_sp_true hc]
        | false =>
          rw [collapseAux_sp_false hc, rstrip_cons_ne_nil hr, collapseAux_sp_false hc]
          cases hY2 : collapseAux true (a :: r) with
          | nil => exact absurd hY2 hYne
          | cons y ys =>
            rw [rstrip_cons_ne_nil (by rw [hY, hY2]), ← hY2]
    · have hc' : pyIsSpace c = false := by simpa using hc
      cases hr : rstrip rest with
      | nil =>
        have h1 : rstrip (collapseAux false rest) = [] := by
          rw [ih false, hr]; rfl
        rw [collapseAux_nonsp hc', rstrip_cons_eq_nil h1, if_neg hc,
          rstrip_cons_eq_nil hr, if_neg hc, collapseAux_nonsp hc', collapseAux_nil]
      | cons a r =>
        have hZ : rstrip (collapseAux false rest) = collapseAux false (a :: r) := by
          rw [ih false, hr]
        cases hZ2 : collapseAux false (a :: r) with
        | nil => exact absurd hZ2 (collapseAux_false_ne_nil a r)
        | cons z zs =>
          rw [collapseAux_nonsp hc', rstrip_cons_ne_nil (by rw [hZ, hZ2]),
            rstrip_cons_ne_nil hr, collapseAux_nonsp hc', hZ2]

theorem mem_collapseAux {c : Char} {l : List Char} {b : Bool} :
    c ∈ collapseAux b l → c = ' ' ∨ c ∈ l := by
  induction l generalizing b with
  | nil => intro h; exact absurd h (by simp [collapseAux_nil])
  | cons d rest ih =>
    intro h
    by_cases hd : pyIsSpace d
    · cases b with
      | true =>
        rw [collapseAux_sp_true hd] at h
        rcases ih h with h1 | h1
        · exact Or.inl h1
        · exact Or.inr (by simp [h1])
      | false =>
        rw [collapseAux_sp_false hd] at h
        rcases List.mem_cons.mp h with h1 | h1
        · exact Or.inl h1
        · rcases ih h1 with h2 | h2
          · exact Or.inl h2
          · exact Or.inr (by simp [h2])
    · rw [collapseAux_nonsp (by simpa using hd)] at h
      rcases List.mem_cons.mp h with h1 | h1
      · exact Or.inr (by simp [h1])
      · rcases ih h1 with h2 | h2
        · exact Or.inl h2
        · exact Or.inr (by simp [h2])

theorem mem_rstrip {c : Char} {l : List Char} : c ∈ rstrip l → c ∈ l := by
  induction l with
  | nil => intro h; exact absurd h (by simp [rstrip_nil])
  | cons d rest ih =>
    intro h
    cases hr : rstrip rest with
    | nil =>
      rw [rstrip_cons_eq_nil hr] at h
      by_cases hd : pyIsSpace d
      · rw [if_pos hd] at h
        exact absurd h (by simp)
      · rw [if_neg hd] at h
        simp at h
        simp [h]
    | cons a r =>
      rw [rstrip_cons_ne_nil hr] at h
      rcases List.mem_cons.mp h with h1 | h1
      · simp [h1]
      · have : c ∈ rstrip rest := by rw [hr]; exact h1
        exact List.mem_cons_of_mem d (ih this)

theorem mem_stripWs {c : Char} {l : List Char} : c ∈ stripWs l → c ∈ l := by
  intro h
  rw [stripWs] at h
  exact (List.dropWhile_sublist pyIsSpace).mem (mem_rstrip h)

theorem dropWhile_head_false {p : Char → Bool} {l : List Char} {c : Char} {t : List Char}
    (h : l.dropWhile p = c :: t) : p c = false := by
  induction l with
  | nil => exact absurd h (by simp)
  | cons d rest ih =>
    by_cases hd : p d
    · rw [List.dropWhile_cons_of_pos hd] at h
      exact ih h
    · rw [List.dropWhile_cons_of_neg hd] at h
      have : d = c := (List.cons.injEq d rest c t ▸ h).1
      rw [← this]
      simpa using hd

theorem rstrip_head {c : Char} {t : List Char} :
    rstrip (c :: t) = [] ∨ ∃ r, rstrip (c :: t) = c :: r := by
  cases hr : rstrip t with
  | nil =>
    rw [rstrip_cons_eq_nil hr]
    by_cases hc : pyIsSpace c
    · exact Or.inl (by rw [if_pos hc])
    · exact Or.inr ⟨[], by rw [if_neg hc]⟩
  | cons a r =>
    exact Or.inr ⟨a :: r, rstrip_cons_ne_nil hr c⟩

theorem strip_collapse_fixpoint (x : List Char) :
    stripWs (collapseAux false (stripWs (collapseAux false x))) =
      stripWs (collapseAux false x) := by
  have key : stripWs (collapseAux false x)
      = collapseAux true (rstrip (x.dropWhile pyIsSpace)) := by
    rw [stripWs, (dropWhile_collapseAux x).2, rstrip_collapseAux]
  set z := x.dropWhile pyIsSpace with hz
  cases hy : rstrip z with
  | nil =>
    rw [key, hy]
    rfl
  | cons d y' =>
    have hd : pyIsSpace d = false := by
      cases hz2 : z with
      | nil => rw [hz2] at hy; exact absurd hy (by simp [rstrip_nil])
      | cons e t =>
        rw [hz2] at hy
        rcases rstrip_head (c := e) (t := t) with h0 | ⟨r, h0⟩
        · rw [h0] at hy; exact absurd hy (by simp)
        · rw [h0] at hy
          have he : e = d := (List.cons.injEq e r d y' ▸ hy).1
          rw [← he]
          exact dropWhile_head_false (l := x) (by rw [← hz, hz2])
    have hcleaned : stripWs (collapseAux false x) = collapseAux false (d :: y') := by
      rw [key, hy, collapseAux_nonsp hd, collapseAux_nonsp hd]
    have hrs : rstrip (stripWs (collapseAux false x)) = stripWs (collapseAux false x) := by
      rw [key, rstrip_collapseAux, rstrip_rstrip]
    have hhead : stripWs (collapseAux false x) = d :: collapseAux false y' := by
      rw [hcleaned, collapseAux_nonsp hd]
    rw [hcleaned, (collapseAux_comp (d :: y')).1, ← hcleaned, stripWs, hhead,
      List.dropWhile_cons_of_neg (by simp [hd]), ← hhead, hrs]

theorem map_self {α : Type} (f : α → α) (l : List α) (h : ∀ a ∈ l, f a = a) :
    l.map f = l := by
  induction l with
  | nil => rfl
  | cons a l ih =>
    simp only [List.map_cons, List.cons.injEq]
    exact ⟨h a (by simp), ih fun b hb => h b (by simp [hb])⟩

theorem toLower_toLower (c : Char) : c.toLower.toLower = c.toLower := by
  by_cases h : c.toNat ≥ 65 ∧ c.toNat ≤ 90
  · have hv : (c.toNat + 32).isValidChar := Or.inl (by omega)
    have ht : (Char.ofNat (c.toNat + 32)).toNat = c.toNat + 32 := by
      rw [Char.ofNat, dif_pos hv]
      simp [Char.ofNatAux, Char.toNat, UInt32.toNat]
    have h1 : Char.toLower c = Char.ofNat (c.toNat + 32) := by
      rw [Char.toLower, if_pos h]
    rw [h1, Char.toLower, ht, if_neg (by omega)]
  · have h1 : Char.toLower c = c := by
      rw [Char.toLower, if_neg h]
    rw [h1, h1]

theorem pyIsSpace_toLower {c : Char} (h : pyIsSpace c = true) : Char.toLower c = c := by
  have h' : ((((c = ' ' ∨ c = '\t') ∨ c = '\n') ∨ c = '\x0d') ∨ c = '\x0b') ∨ c = '\x0c' := by
    simpa [pyIsSpace] using h
  rcases h' with ((((h1 | h1) | h1) | h1) | h1) | h1 <;> rw [h1] <;> decide

theorem removeSpecial_chars {c : Char} {l : List Char} (h : c ∈ removeSpecial l) :
    (pyIsWord c || pyIsSpace c) = true ∧ (c = ' ' ∨ c ∈ l) := by
  rw [removeSpecial] at h
  rcases List.mem_map.mp h with ⟨d, hd, hdc⟩
  by_cases hcond : (pyIsWord d || pyIsSpace d) = true
  · rw [if_pos hcond] at hdc
    rw [← hdc]
    exact ⟨hcond, Or.inr hd⟩
  · rw [if_neg hcond] at hdc
    rw [← hdc]
    exact ⟨by decide, Or.inl rfl⟩

theorem cleaned_chars (l : List Char) :
    ∀ c ∈ stripWs (collapseAux false (removeSpecial (l.map Char.toLower))),
      Char.toLower c = c ∧ (pyIsWord c || pyIsSpace c) = true := by
  intro c hc
  rcases mem_collapseAux (mem_stripWs hc) with h1 | h1
  · rw [h1]; exact ⟨by decide, by decide⟩
  · obtain ⟨hcond, h2⟩ := removeSpecial_chars h1
    refine ⟨?_, hcond⟩
    rcases h2 with h3 | h3
    · rw [h3]; decide
    · rcases List.mem_map.mp h3 with ⟨d, _, hdc⟩
      rw [← hdc]
      exact toLower_toLower d

theorem toList_mk (l : List Char) : (String.mk l).toList = l := rfl

/-- Claim C8: for every input string, the preprocess result satisfies
tokenCount ≤ wordCount (filtering never increases the token count). -/
theorem claim_C8 (s : String) :
    (preprocess_text s).token_count ≤ (preprocess_text s).word_count := by
  simp only [preprocess_text]
  exact List.length_filter_le _ _

/-- Claim C2: preprocess lowercases the string, replaces every character that is
not a word character and not whitespace with a space, collapses whitespace runs
and trims (the cleaned string), splits on whitespace into the raw token sequence
whose length is wordCount, and returns as tokens that sequence with every token
that is a stopword or of length ≤ 2 removed in order, with tokenCount its length.
The raw token sequence is equivalently the direct whitespace split of the
substituted string, which is how it is stated here. -/
theorem claim_C2 (s : String) :
    (preprocess_text s).cleaned.toList
        = stripWs (collapseAux false (removeSpecial (s.toList.map Char.toLower))) ∧
      (preprocess_text s).word_count
        = (pySplit (removeSpecial (s.toList.map Char.toLower))).length ∧
      (preprocess_text s).tokens
        = ((pySplit (removeSpecial (s.toList.map Char.toLower))).map
            (fun w => String.mk w)).filter keepToken ∧
      (preprocess_text s).token_count = (preprocess_text s).tokens.length := by
  refine ⟨rfl, ?_, ?_, rfl⟩
  · show ((pySplit (stripWs (collapseAux false
        (removeSpecial (s.toList.map Char.toLower))))).map (fun w => String.mk w)).length = _
    rw [pySplit_strip_collapse, List.length_map]
  · show ((pySplit (stripWs (collapseAux false
        (removeSpecial (s.toList.map Char.toLower))))).map (fun w => String.mk w)).filter
          keepToken = _
    rw [pySplit_strip_collapse]

/-- Claim C10: preprocessing is idempotent on its own cleaned output: running
preprocess on the cleaned string returns the same cleaned string, the same
tokens, the same wordCount and the same tokenCount. -/
theorem claim_C10 (s : String) :
    (preprocess_text ((preprocess_text s).cleaned)).cleaned = (preprocess_text s).cleaned ∧
      (preprocess_text ((preprocess_text s).cleaned)).tokens = (preprocess_text s).tokens ∧
      (preprocess_text ((preprocess_text s).cleaned)).word_count
        = (preprocess_text s).word_count ∧
      (preprocess_text ((preprocess_text s).cleaned)).token_count
        = (preprocess_text s).token_count := by
  have hx : (preprocess_text s).cleaned
      = String.mk (stripWs (collapseAux false
          (removeSpecial (s.toList.map Char.toLower)))) := rfl
  set L := stripWs (collapseAux false (removeSpecial (s.toList.map Char.toLower))) with hL
  have hchars := cleaned_chars s.toList
  have h2 : L.map Char.toLower = L := map_self _ _ fun c hc => (hchars c hc).1
  have h3 : removeSpecial L = L := by
    rw [removeSpecial]
    exact map_self _ _ fun c hc => by rw [if_pos (hchars c hc).2]
  have h4 : stripWs (collapseAux false L) = L := strip_collapse_fixpoint _
  have key : stripWs (collapseAux false
      (removeSpecial ((String.mk L).toList.map Char.toLower))) = L := by
    rw [toList_mk, h2, h3, h4]
  rw [hx]
  refine ⟨?_, ?_, ?_, ?_⟩
  · show String.mk (stripWs (collapseAux false
        (removeSpecial ((String.mk L).toList.map Char.toLower)))) = String.mk L
    rw [key]
  · show ((pySplit (stripWs (collapseAux false
        (removeSpecial ((String.mk L).toList.map Char.toLower))))).map
          (fun w => String.mk w)).filter keepToken = _
    rw [key]
    rfl
  · show ((pySplit (stripWs (collapseAux false
        (removeSpecial ((String.mk L).toList.map Char.toLower))))).map
          (fun w => String.mk w)).length = _
    rw [key]
    rfl
  · show (((pySplit (stripWs (collapseAux false
        (removeSpecial ((String.mk L).toList.map Char.toLower))))).map
          (fun w => String.mk w)).filter keepToken).length = _
    rw [key]
    rfl

theorem dGet_dictIncr (d : EmotionDict) (k e : String) :
    dGet (dictIncr d k) e = dGet d e + if k = e then 1 else 0 := by
  induction d with
  | nil => simp [dictIncr, dGet]
  | cons p rest ih =>
    obtain ⟨k', v⟩ := p
    by_cases h1 : k' = k
    · rw [dictIncr, if_pos h1]
      by_cases h2 : k' = e
      · have h3 : k = e := h1 ▸ h2
        rw [dGet, if_pos h2, dGet, if_pos h2, if_pos h3]
      · have h3 : ¬ k = e := fun h => h2 (h1 ▸ h)
        rw [dGet, if_neg h2, dGet, if_neg h2, if_neg h3]
        omega
    · rw [dictIncr, if_neg h1]
      by_cases h2 : k' = e
      · have h3 : ¬ k = e := fun h => h1 (h2 ▸ h.symm ▸ rfl)
        rw [dGet, if_pos h2, dGet, if_pos h2, if_neg h3]
        omega
      · rw [dGet, if_neg h2, dGet, if_neg h2, ih]

theorem keys_dictIncr (d : EmotionDict) (k : String) :
    (dictIncr d k).map Prod.fst =
      if k ∈ d.map Prod.fst then d.map Prod.fst else d.map Prod.fst ++ [k] := by
  induction d with
  | nil => simp [dictIncr]
  | cons p rest ih =>
    obtain ⟨k', v⟩ := p
    by_cases h1 : k' = k
    · rw [dictIncr, if_pos h1]
      simp [h1]
    · rw [dictIncr, if_neg h1]
      by_cases h2 : k ∈ rest.map Prod.fst
      · simp only [List.map_cons, ih, if_pos h2]
        rw [if_pos (by simp [h2])]
      · simp only [List.map_cons, ih, if_neg h2]
        rw [if_neg (by simp [h2]; exact fun h => h1 h.symm)]
        simp

theorem sum_dictIncr (d : EmotionDict) (k : String) :
    ((dictIncr d k).map Prod.snd).sum = (d.map Prod.snd).sum + 1 := by
  induction d with
  | nil => simp [dictIncr]
  | cons p rest ih =>
    obtain ⟨k', v⟩ := p
    by_cases h1 : k' = k
    · rw [dictIncr, if_pos h1]
      simp
      omega
    · rw [dictIncr, if_neg h1]
      simp [ih]
      omega

theorem pos_dictIncr (d : EmotionDict) (k : String) (h : ∀ p ∈ d, 0 < p.2) :
    ∀ p ∈ dictIncr d k, 0 < p.2 := by
  induction d with
  | nil =>
    intro p hp
    rw [dictIncr] at hp
    rcases List.mem_singleton.mp hp with h1
    simp [h1]
  | cons q rest ih =>
    obtain ⟨k', v⟩ := q
    intro p hp
    by_cases h1 : k' = k
    · rw [dictIncr, if_pos h1] at hp
      rcases List.mem_cons.mp hp with h2 | h2
      · simp [h2]
      · exact h p (by simp [h2])
    · rw [dictIncr, if_neg h1] at hp
      rcases List.mem_cons.mp hp with h2 | h2
      · exact h p (by simp [h2])
      · exact ih (fun q hq => h q (by simp [hq])) p h2

theorem nodup_dictIncr (d : EmotionDict) (k : String)
    (h : (d.map Prod.fst).Nodup) : ((dictIncr d k).map Prod.fst).Nodup := by
  rw [keys_dictIncr]
  by_cases h1 : k ∈ d.map Prod.fst
  · rwa [if_pos h1]
  · rw [if_neg h1]
    rw [List.nodup_append_comm]
    simp only [List.singleton_append, List.nodup_cons]
    exact ⟨h1, h⟩

theorem lookupStr_eq_none {α : Type} (L : List (String × α)) (e : String)
    (h : e ∉ L.map Prod.fst) : lookupStr L e = none := by
  induction L with
  | nil => rfl
  | cons p rest ih =>
    obtain ⟨k, v⟩ := p
    simp only [List.map_cons, List.mem_cons, not_or] at h
    rw [lookupStr, if_neg (fun hh => h.1 hh.symm), ih h.2]

theorem dGet_foldIncr (L : List (String × List String)) (t : String)
    (hnd : (L.map Prod.fst).Nodup) (d : EmotionDict) (e : String) :
    dGet (L.foldl (fun d p => if p.2.contains t then dictIncr d p.1 else d) d) e
      = dGet d e + if ((lookupStr L e).getD []).contains t then 1 else 0 := by
  induction L generalizing d with
  | nil => simp [lookupStr]
  | cons p rest ih =>
    obtain ⟨k, ws⟩ := p
    simp only [List.map_cons, List.nodup_cons] at hnd
    rw [List.foldl_cons]
    by_cases h1 : k = e
    · have hnone : lookupStr rest e = none := lookupStr_eq_none rest e (h1 ▸ hnd.1)
      rw [ih hnd.2, hnone, lookupStr, if_pos h1]
      simp only [Option.getD_none, Option.getD_some, List.contains_nil,
        Bool.false_eq_true, if_false, Nat.add_zero]
      by_cases h2 : ws.contains t
      · rw [if_pos h2, if_pos h2, dGet_dictIncr, if_pos h1]
      · rw [if_neg h2, if_neg h2, Nat.add_zero]
    · rw [ih hnd.2, lookupStr, if_neg h1]
      by_cases h2 : ws.contains t
      · rw [if_pos h2, dGet_dictIncr, if_neg h1, Nat.add_zero]
      · rw [if_neg h2]

theorem sum_foldIncr (L : List (String × List String)) (t : String) (d : EmotionDict) :
    (((L.foldl (fun d p => if p.2.contains t then dictIncr d p.1 else d) d)).map
        Prod.snd).sum
      = (d.map Prod.snd).sum + L.countP (fun p => p.2.contains t) := by
  induction L generalizing d with
  | nil => simp
  | cons p rest ih =>
    obtain ⟨k, ws⟩ := p
    rw [List.foldl_cons, List.countP_cons]
    by_cases h2 : ws.contains t
    · rw [if_pos h2, ih, sum_dictIncr]
      simp only [h2, if_true]
      omega
    · rw [if_neg h2, ih]
      simp only [h2]
      simp

theorem nodup_foldIncr (L : List (String × List String)) (t : String) (d : EmotionDict)
    (h : (d.map Prod.fst).Nodup) :
    (((L.foldl (fun d p => if p.2.contains t then dictIncr d p.1 else d) d)).map
        Prod.fst).Nodup := by
  induction L generalizing d with
  | nil => exact h
  | cons p rest ih =>
    rw [List.foldl_cons]
    by_cases h2 : p.2.contains t
    · rw [if_pos h2]
      exact ih _ (nodup_dictIncr d p.1 h)
    · rw [if_neg h2]
      exact ih _ h

theorem pos_foldIncr (L : List (String × List String)) (t : String) (d : EmotionDict)
    (h : ∀ p ∈ d, 0 < p.2) :
    ∀ q ∈ L.foldl (fun d p => if p.2.contains t then dictIncr d p.1 else d) d, 0 < q.2 := by
  induction L generalizing d with
  | nil => exact h
  | cons p rest ih =>
    rw [List.foldl_cons]
    by_cases h2 : p.2.contains t
    · rw [if_pos h2]
      exact ih _ (pos_dictIncr d p.1 h)
    · rw [if_neg h2]
      exact ih _ h

theorem dGet_stepEmotions (d : EmotionDict) (t e : String) :
    dGet (stepEmotions d t) e = dGet d e + if (emWords e).contains t then 1 else 0 :=
  dGet_foldIncr EMOTION_LEXICON t (by decide) d e

theorem emotion_keys_nodup : (EMOTION_LEXICON.map Prod.fst).Nodup := by decide

theorem scan_positive (ts : List String) (st : ScoreState) :
    (ts.foldl stepToken st).positive_score = st.positive_score + posCount ts := by
  induction ts generalizing st with
  | nil => simp [posCount]
  | cons t rest ih =>
    rw [List.foldl_cons, ih]
    simp only [posCount, List.countP_cons, stepToken]
    by_cases h : POSITIVE_WORDS.contains t
    · simp only [h, if_true]
      omega
    · simp only [h, Bool.false_eq_true, if_false]
      omega

theorem scan_negative (ts : List String) (st : ScoreState) :
    (ts.foldl stepToken st).negative_score = st.negative_score + negCount ts := by
  induction ts generalizing st with
  | nil => simp [negCount]
  | cons t rest ih =>
    rw [List.foldl_cons, ih]
    simp only [negCount, List.countP_cons, stepToken]
    by_cases h : NEGATIVE_WORDS.contains t
    · simp only [h, if_true]
      omega
    · simp only [h, Bool.false_eq_true, if_false]
      omega

theorem scan_dGet (ts : List String) (st : ScoreState) (e : String) :
    dGet (ts.foldl stepToken st).detected_emotions e
      = dGet st.detected_emotions e + hitCount ts e := by
  induction ts generalizing st with
  | nil => simp [hitCount]
  | cons t rest ih =>
    rw [List.foldl_cons, ih]
    simp only [stepToken]
    rw [dGet_stepEmotions]
    simp only [hitCount, List.countP_cons]
    omega

theorem sum_ite_countP {α : Type} (L : List α) (p : α → Bool) :
    (L.map fun a => if p a then 1 else 0).sum = L.countP p := by
  induction L with
  | nil => simp
  | cons a rest ih =>
    simp only [List.map_cons, List.sum_cons, List.countP_cons, ih]
    by_cases h : p a
    · simp [h]
      omega
    · simp [h]

theorem sum_map_add' {α : Type} (L : List α) (f g : α → Nat) :
    (L.map fun a => f a + g a).sum = (L.map f).sum + (L.map g).sum := by
  induction L with
  | nil => simp
  | cons a rest ih =>
    simp only [List.map_cons, List.sum_cons, ih]
    omega

theorem emWords_eq : ∀ p ∈ EMOTION_LEXICON, emWords p.1 = p.2 := by decide

theorem totalHits_cons (t : String) (ts : List String) :
    totalHits (t :: ts)
      = EMOTION_LEXICON.countP (fun p => p.2.contains t) + totalHits ts := by
  simp only [totalHits, hitCount, List.countP_cons]
  rw [sum_map_add']
  have hcongr : EMOTION_LEXICON.map
        (fun p => if (emWords p.1).contains t then 1 else 0)
      = EMOTION_LEXICON.map (fun p => if p.2.contains t then 1 else 0) :=
    List.map_congr_left fun p hp => by rw [emWords_eq p hp]
  rw [hcongr, sum_ite_countP]
  omega

theorem scan_sum (ts : List String) (st : ScoreState) :
    ((ts.foldl stepToken st).detected_emotions.map Prod.snd).sum
      = (st.detected_emotions.map Prod.snd).sum + totalHits ts := by
  induction ts generalizing st with
  | nil => simp [totalHits, hitCount]
  | cons t rest ih =>
    rw [List.foldl_cons, ih]
    simp only [stepToken, stepEmotions]
    rw [sum_foldIncr, totalHits_cons]
    omega

theorem scan_wf (ts : List String) (st : ScoreState)
    (hnd : (st.detected_emotions.map Prod.fst).Nodup)
    (hpos : ∀ p ∈ st.detected_emotions, 0 < p.2) :
    ((ts.foldl stepToken st).detected_emotions.map Prod.fst).Nodup ∧
      ∀ p ∈ (ts.foldl stepToken st).detected_emotions, 0 < p.2 := by
  induction ts generalizing st with
  | nil => exact ⟨hnd, hpos⟩
  | cons t rest ih =>
    rw [List.foldl_cons]
    refine ih _ ?_ ?_
    · simp only [stepToken, stepEmotions]
      exact nodup_foldIncr _ _ _ hnd
    · simp only [stepToken, stepEmotions]
      exact pos_foldIncr _ _ _ hpos

theorem mem_dict_iff (d : EmotionDict) (hnd : (d.map Prod.fst).Nodup)
    (hpos : ∀ p ∈ d, 0 < p.2) (e : String) (n : Nat) :
    (e, n) ∈ d ↔ 0 < n ∧ dGet d e = n := by
  induction d with
  | nil =>
    simp only [List.not_mem_nil, false_iff, dGet, not_and]
    omega
  | cons q rest ih =>
    obtain ⟨k, v⟩ := q
    simp only [List.map_cons, List.nodup_cons] at hnd
    constructor
    · intro h
      rcases List.mem_cons.mp h with h1 | h1
      · have hk : k = e := (Prod.mk.injEq _ _ _ _ ▸ h1.symm).1
        have hv : v = n := (Prod.mk.injEq _ _ _ _ ▸ h1.symm).2
        refine ⟨hv ▸ hpos (k, v) (by simp), ?_⟩
        rw [dGet, if_pos hk, hv]
      · have hke : ¬ k = e := by
          intro hke
          apply hnd.1
          rw [hke]
          exact List.mem_map.mpr ⟨(e, n), h1, rfl⟩
        obtain ⟨hn, hd⟩ := (ih hnd.2 fun p hp => hpos p (by simp [hp])).mp h1
        exact ⟨hn, by rw [dGet, if_neg hke, hd]⟩
    · rintro ⟨hn, hd⟩
      rw [dGet] at hd
      by_cases hke : k = e
      · rw [if_pos hke] at hd
        exact List.mem_cons.mpr (Or.inl (by rw [hke, hd]))
      · rw [if_neg hke] at hd
        exact List.mem_cons.mpr
          (Or.inr ((ih hnd.2 fun p hp => hpos p (by simp [hp])).mpr ⟨hn, hd⟩))

theorem scanTokens_positive (ts : List String) :
    (scanTokens ts).positive_score = posCount ts := by
  rw [scanTokens, scan_positive]
  simp

theorem scanTokens_negative (ts : List String) :
    (scanTokens ts).negative_score = negCount ts := by
  rw [scanTokens, scan_negative]
  simp

theorem scanTokens_dGet (ts : List String) (e : String) :
    dGet (scanTokens ts).detected_emotions e = hitCount ts e := by
  rw [scanTokens, scan_dGet]
  simp [dGet]

theorem scanTokens_sum (ts : List String) :
    ((scanTokens ts).detected_emotions.map Prod.snd).sum = totalHits ts := by
  rw [scanTokens, scan_sum]
  simp

theorem scanTokens_wf (ts : List String) :
    ((scanTokens ts).detected_emotions.map Prod.fst).Nodup ∧
      ∀ p ∈ (scanTokens ts).detected_emotions, 0 < p.2 := by
  rw [scanTokens]
  exact scan_wf ts _ (by simp) (by simp)

theorem mem_scanTokens_iff (ts : List String) (e : String) (n : Nat) :
    (e, n) ∈ (scanTokens ts).detected_emotions ↔ 0 < n ∧ n = hitCount ts e := by
  rw [mem_dict_iff _ (scanTokens_wf ts).1 (scanTokens_wf ts).2, scanTokens_dGet]
  constructor
  · rintro ⟨h1, h2⟩; exact ⟨h1, h2.symm⟩
  · rintro ⟨h1, h2⟩; exact ⟨h1, h2.symm⟩

theorem hitCount_le_totalHits (ts : List String) (e : String) :
    hitCount ts e ≤ totalHits ts := by
  by_cases he : e ∈ EMOTION_LEXICON.map Prod.fst
  · rcases List.mem_map.mp he with ⟨p, hp, hpe⟩
    have : hitCount ts e ∈ EMOTION_LEXICON.map fun q => hitCount ts q.1 :=
      List.mem_map.mpr ⟨p, hp, by rw [hpe]⟩
    exact List.le_sum_of_mem this
  · have h0 : emWords e = [] := by
      rw [emWords, lookupStr_eq_none _ _ he]
      rfl
    have : hitCount ts e = 0 := by
      rw [hitCount, h0]
      simp
    omega

theorem analyze_positive_score (ts : List String) :
    (analyze_sentiment ts).positive_score = posCount ts := by
  have h : (analyze_sentiment ts).positive_score = (scanTokens ts).positive_score := rfl
  rw [h, scanTokens_positive]

theorem analyze_negative_score (ts : List String) :
    (analyze_sentiment ts).negative_score = negCount ts := by
  have h : (analyze_sentiment ts).negative_score = (scanTokens ts).negative_score := rfl
  rw [h, scanTokens_negative]

theorem analyze_keywords_positive (ts : List String) :
    (analyze_sentiment ts).keywords_positive
      = ts.filter fun t => POSITIVE_WORDS.contains t := rfl

theorem analyze_keywords_negative (ts : List String) :
    (analyze_sentiment ts).keywords_negative
      = ts.filter fun t => NEGATIVE_WORDS.contains t := rfl

theorem emotions_mem_iff (ts : List String) (e : String) (q : ℚ) :
    (e, q) ∈ (analyze_sentiment ts).emotions ↔
      0 < hitCount ts e ∧
        q = min ((hitCount ts e : ℚ) / (totalHits ts : ℚ) * 100) 95 := by
  have hemo : (analyze_sentiment ts).emotions
      = if 0 < ((scanTokens ts).detected_emotions.map Prod.snd).sum then
          (scanTokens ts).detected_emotions.map fun p =>
            (p.1, min (((p.2 : ℚ)
              / ((((scanTokens ts).detected_emotions.map Prod.snd).sum : Nat) : ℚ)) * 100) 95)
        else [] := rfl
  rw [hemo, scanTokens_sum]
  by_cases h0 : 0 < totalHits ts
  · rw [if_pos h0]
    constructor
    · intro h
      rcases List.mem_map.mp h with ⟨p, hp, hpe⟩
      obtain ⟨e', n⟩ := p
      simp only [Prod.mk.injEq] at hpe
      obtain ⟨he, hq⟩ := hpe
      rw [← he]
      obtain ⟨hn, hcount⟩ := (mem_scanTokens_iff ts e' n).mp hp
      rw [← hcount, ← hq]
      exact ⟨hn, rfl⟩
    · rintro ⟨h1, h2⟩
      exact List.mem_map.mpr
        ⟨(e, hitCount ts e), (mem_scanTokens_iff ts e _).mpr ⟨h1, rfl⟩, by rw [h2]⟩
  · rw [if_neg h0]
    simp only [List.not_mem_nil, false_iff, not_and]
    intro h1
    exact absurd (Nat.lt_of_lt_of_le h1 (hitCount_le_totalHits ts e)) h0

theorem emotions_empty_of_no_hits (ts : List String) (h : totalHits ts = 0) :
    (analyze_sentiment ts).emotions = [] := by
  have hemo : (analyze_sentiment ts).emotions
      = if 0 < ((scanTokens ts).detected_emotions.map Prod.snd).sum then
          (scanTokens ts).detected_emotions.map fun p =>
            (p.1, min (((p.2 : ℚ)
              / ((((scanTokens ts).detected_emotions.map Prod.snd).sum : Nat) : ℚ)) * 100) 95)
        else [] := rfl
  rw [hemo, scanTokens_sum, h]
  simp

theorem le_roundEven {m : ℤ} {z : ℚ} (h : (m : ℚ) ≤ z) : m ≤ roundEven z := by
  have hf : m ≤ ⌊z⌋ := Int.le_floor.mpr h
  rw [roundEven]
  split_ifs <;> omega

theorem roundEven_le {m : ℤ} {z : ℚ} (h : z ≤ (m : ℚ)) : roundEven z ≤ m := by
  have hf : ⌊z⌋ ≤ m := by
    have h1 := Int.floor_mono h
    rwa [Int.floor_intCast] at h1
  have hstep : (⌊z⌋ : ℚ) + 1 / 2 ≤ z → ⌊z⌋ + 1 ≤ m := by
    intro h1
    have h2 : (⌊z⌋ : ℚ) < (m : ℚ) := by linarith
    have h3 : ⌊z⌋ < m := by exact_mod_cast h2
    omega
  rw [roundEven]
  split_ifs with h1 h2 h3
  · exact hf
  · exact hstep (by linarith)
  · exact hf
  · exact hstep (by rw [not_lt] at h1; linarith)

theorem roundEven_intCast (m : ℤ) : roundEven ((m : ℚ)) = m := by
  rw [roundEven, Int.floor_intCast, if_pos (by norm_num)]

theorem round2_of_int_mul {m : ℤ} {x : ℚ} (h : x * 100 = (m : ℚ)) : round2 x = x := by
  rw [round2, h, roundEven_intCast, ← h]
  field_simp

theorem le_round2_of_le {n : ℤ} {x : ℚ} (h : (n : ℚ) ≤ x) : (n : ℚ) ≤ round2 x := by
  have h1 : (n * 100 : ℤ) ≤ roundEven (x * 100) := le_roundEven (by push_cast; linarith)
  have h2 : ((n * 100 : ℤ) : ℚ) ≤ (roundEven (x * 100) : ℚ) := by exact_mod_cast h1
  rw [round2, le_div_iff₀ (by norm_num : (0 : ℚ) < 100)]
  push_cast at h2 ⊢
  linarith

theorem round2_le_of_le {n : ℤ} {x : ℚ} (h : x ≤ (n : ℚ)) : round2 x ≤ (n : ℚ) := by
  have h1 : roundEven (x * 100) ≤ (n * 100 : ℤ) := roundEven_le (by push_cast; linarith)
  have h2 : (roundEven (x * 100) : ℚ) ≤ ((n * 100 : ℤ) : ℚ) := by exact_mod_cast h1
  rw [round2, div_le_iff₀ (by norm_num : (0 : ℚ) < 100)]
  push_cast at h2 ⊢
  linarith

theorem sentconf_total_zero (ts : List String) (h : posCount ts + negCount ts = 0) :
    (analyze_sentiment ts).sentiment = Sentiment.neutral ∧
      (analyze_sentiment ts).confidence = 50 := by
  have hs : (analyze_sentiment ts).sentiment
      = (if (scanTokens ts).positive_score + (scanTokens ts).negative_score = 0 then
          ((Sentiment.neutral, (50 : ℚ)))
        else
          let positive_ratio : ℚ := ((scanTokens ts).positive_score : ℚ)
            / (((scanTokens ts).positive_score + (scanTokens ts).negative_score : Nat) : ℚ)
          if positive_ratio > 0.6 then
            (Sentiment.positive, min (60 + (positive_ratio - 0.6) * 150) 98)
          else if positive_ratio < 0.4 then
            (Sentiment.negative, min (60 + (0.4 - positive_ratio) * 150) 98)
          else
            (Sentiment.neutral, 50 + |positive_ratio - 0.5| * 100)).1 := rfl
  have hc : (analyze_sentiment ts).confidence
      = round2 (if (scanTokens ts).positive_score + (scanTokens ts).negative_score = 0 then
          ((Sentiment.neutral, (50 : ℚ)))
        else
          let positive_ratio : ℚ := ((scanTokens ts).positive_score : ℚ)
            / (((scanTokens ts).positive_score + (scanTokens ts).negative_score : Nat) : ℚ)
          if positive_ratio > 0.6 then
            (Sentiment.positive, min (60 + (positive_ratio - 0.6) * 150) 98)
          else if positive_ratio < 0.4 then
            (Sentiment.negative, min (60 + (0.4 - positive_ratio) * 150) 98)
          else
            (Sentiment.neutral, 50 + |positive_ratio - 0.5| * 100)).2 := rfl
  rw [hs, hc, scanTokens_positive, scanTokens_negative, if_pos h]
  refine ⟨rfl, ?_⟩
  exact round2_of_int_mul (m := 5000) (by norm_num)

theorem sentconf_branches (ts : List String) (h : ¬ posCount ts + negCount ts = 0) :
    ((0.6 : ℚ) < (posCount ts : ℚ) / ((posCount ts + negCount ts : ℕ) : ℚ) →
        (analyze_sentiment ts).sentiment = Sentiment.positive ∧
          (analyze_sentiment ts).confidence
            = round2 (min (60 + ((posCount ts : ℚ)
                / ((posCount ts + negCount ts : ℕ) : ℚ) - 0.6) * 150) 98)) ∧
      ((posCount ts : ℚ) / ((posCount ts + negCount ts : ℕ) : ℚ) < 0.4 →
        (analyze_sentiment ts).sentiment = Sentiment.negative ∧
          (analyze_sentiment ts).confidence
            = round2 (min (60 + (0.4 - (posCount ts : ℚ)
                / ((posCount ts + negCount ts : ℕ) : ℚ)) * 150) 98)) ∧
      ((0.4 : ℚ) ≤ (posCount ts : ℚ) / ((posCount ts + negCount ts : ℕ) : ℚ) →
        (posCount ts : ℚ) / ((posCount ts + negCount ts : ℕ) : ℚ) ≤ 0.6 →
        (analyze_sentiment ts).sentiment = Sentiment.neutral ∧
          (analyze_sentiment ts).confidence
            = round2 (50 + |(posCount ts : ℚ)
                / ((posCount ts + negCount ts : ℕ) : ℚ) - 0.5| * 100)) := by
  have hs : (analyze_sentiment ts).sentiment
      = (if (scanTokens ts).positive_score + (scanTokens ts).negative_score = 0 then
          ((Sentiment.neutral, (50 : ℚ)))
        else
          if ((scanTokens ts).positive_score : ℚ)
              / (((scanTokens ts).positive_score + (scanTokens ts).negative_score : Nat) : ℚ)
              > 0.6 then
            (Sentiment.positive, min (60 + (((scanTokens ts).positive_score : ℚ)
              / (((scanTokens ts).positive_score + (scanTokens ts).negative_score : Nat) : ℚ)
              - 0.6) * 150) 98)
          else if ((scanTokens ts).positive_score : ℚ)
              / (((scanTokens ts).positive_score + (scanTokens ts).negative_score : Nat) : ℚ)
              < 0.4 then
            (Sentiment.negative, min (60 + (0.4 - ((scanTokens ts).positive_score : ℚ)
              / (((scanTokens ts).positive_score + (scanTokens ts).negative_score : Nat) : ℚ))
              * 150) 98)
          else
            (Sentiment.neutral, 50 + |((scanTokens ts).positive_score : ℚ)
              / (((scanTokens ts).positive_score + (scanTokens ts).negative_score : Nat) : ℚ)
              - 0.5| * 100)).1 := rfl
  have hc : (analyze_sentiment ts).confidence
      = round2 ((if (scanTokens ts).positive_score + (scanTokens ts).negative_score = 0 then
          ((Sentiment.neutral, (50 : ℚ)))
        else
          if ((scanTokens ts).positive_score : ℚ)
              / (((scanTokens ts).positive_score + (scanTokens ts).negative_score : Nat) : ℚ)
              > 0.6 then
            (Sentiment.positive, min (60 + (((scanTokens ts).positive_score : ℚ)
              / (((scanTokens ts).positive_score + (scanTokens ts).negative_score : Nat) : ℚ)
              - 0.6) * 150) 98)
          else if ((scanTokens ts).positive_score : ℚ)
              / (((scanTokens ts).positive_score + (scanTokens ts).negative_score : Nat) : ℚ)
              < 0.4 then
            (Sentiment.negative, min (60 + (0.4 - ((scanTokens ts).positive_score : ℚ)
              / (((scanTokens ts).positive_score + (scanTokens ts).negative_score : Nat) : ℚ))
              * 150) 98)
          else
            (Sentiment.neutral, 50 + |((scanTokens ts).positive_score : ℚ)
              / (((scanTokens ts).positive_score + (scanTokens ts).negative_score : Nat) : ℚ)
              - 0.5| * 100)).2) := rfl
  rw [hs, hc, scanTokens_positive, scanTokens_negative, if_neg h]
  refine ⟨fun h1 => ?_, fun h1 => ?_, fun h1 h2 => ?_⟩
  · rw [if_pos h1]
    exact ⟨rfl, rfl⟩
  · rw [if_neg (by rw [not_lt]; linarith), if_pos h1]
    exact ⟨rfl, rfl⟩
  · rw [if_neg (by rw [not_lt]; exact h2), if_neg (by rw [not_lt]; exact h1)]
    exact ⟨rfl, rfl⟩

/-- Claim C1: when totalScore = positiveScore + negativeScore > 0, score
classifies by positiveRatio = positiveScore / totalScore: above 0.6 it is
positive with confidence min(60 + (ratio - 0.6) * 150, 98); below 0.4 it is
negative with confidence min(60 + (0.4 - ratio) * 150, 98); otherwise neutral
with confidence 50 + |ratio - 0.5| * 100; the returned confidence is the value
rounded to two decimal places. -/
theorem claim_C1 (ts : List String) (h : 0 < posCount ts + negCount ts) :
    ((0.6 : ℚ) < (posCount ts : ℚ) / ((posCount ts + negCount ts : ℕ) : ℚ) →
        (analyze_sentiment ts).sentiment = Sentiment.positive ∧
          (analyze_sentiment ts).confidence
            = round2 (min (60 + ((posCount ts : ℚ)
                / ((posCount ts + negCount ts : ℕ) : ℚ) - 0.6) * 150) 98)) ∧
      ((posCount ts : ℚ) / ((posCount ts + negCount ts : ℕ) : ℚ) < 0.4 →
        (analyze_sentiment ts).sentiment = Sentiment.negative ∧
          (analyze_sentiment ts).confidence
            = round2 (min (60 + (0.4 - (posCount ts : ℚ)
                / ((posCount ts + negCount ts : ℕ) : ℚ)) * 150) 98)) ∧
      ((0.4 : ℚ) ≤ (posCount ts : ℚ) / ((posCount ts + negCount ts : ℕ) : ℚ) →
        (posCount ts : ℚ) / ((posCount ts + negCount ts : ℕ) : ℚ) ≤ 0.6 →
        (analyze_sentiment ts).sentiment = Sentiment.neutral ∧
          (analyze_sentiment ts).confidence
            = round2 (50 + |(posCount ts : ℚ)
                / ((posCount ts + negCount ts : ℕ) : ℚ) - 0.5| * 100)) :=
  sentconf_branches ts (by omega)

theorem claim_C1_witness :
    (analyze_sentiment ["love"]).sentiment = Sentiment.positive ∧
      (analyze_sentiment ["love"]).confidence = 98 := by
  have hp : posCount ["love"] = 1 := by decide
  have hn : negCount ["love"] = 0 := by decide
  have h := (claim_C1 ["love"] (by decide)).1
  rw [hp, hn] at h
  obtain ⟨hsent, hconf⟩ := h (by norm_num)
  refine ⟨hsent, ?_⟩
  rw [hconf]
  have hmin : min (60 + ((((1 : ℕ)) : ℚ) / (((1 + 0 : ℕ)) : ℚ) - 0.6) * 150) 98
      = (98 : ℚ) := by
    norm_num
  rw [hmin]
  exact round2_of_int_mul (m := 9800) (by norm_num)

/-- Claim C5: the returned confidence lies in [50, 98] whenever totalScore > 0
and equals exactly 50 whenever totalScore = 0. -/
theorem claim_C5 (ts : List String) :
    (0 < posCount ts + negCount ts →
        50 ≤ (analyze_sentiment ts).confidence ∧
          (analyze_sentiment ts).confidence ≤ 98) ∧
      (posCount ts + negCount ts = 0 → (analyze_sentiment ts).confidence = 50) := by
  constructor
  · intro h
    have hT : (0 : ℚ) < ((posCount ts + negCount ts : ℕ) : ℚ) := by
      exact_mod_cast h
    have hr0 : (0 : ℚ) ≤ (posCount ts : ℚ) / ((posCount ts + negCount ts : ℕ) : ℚ) :=
      div_nonneg (by positivity) (le_of_lt hT)
    have hr1 : (posCount ts : ℚ) / ((posCount ts + negCount ts : ℕ) : ℚ) ≤ 1 := by
      rw [div_le_one hT]
      exact_mod_cast Nat.le_add_right _ _
    by_cases h1 : (0.6 : ℚ) < (posCount ts : ℚ) / ((posCount ts + negCount ts : ℕ) : ℚ)
    · obtain ⟨_, hconf⟩ := (sentconf_branches ts (by omega)).1 h1
      rw [hconf]
      constructor
      · have : (50 : ℚ) ≤ min (60 + ((posCount ts : ℚ)
            / ((posCount ts + negCount ts : ℕ) : ℚ) - 0.6) * 150) 98 := by
          apply le_min
          · nlinarith
          · norm_num
        exact_mod_cast le_round2_of_le (n := 50) (by exact_mod_cast this)
      · have : min (60 + ((posCount ts : ℚ)
            / ((posCount ts + negCount ts : ℕ) : ℚ) - 0.6) * 150) 98 ≤ (98 : ℚ) :=
          min_le_right _ _
        exact_mod_cast round2_le_of_le (n := 98) (by exact_mod_cast this)
    · by_cases h2 : (posCount ts : ℚ) / ((posCount ts + negCount ts : ℕ) : ℚ) < 0.4
      · obtain ⟨_, hconf⟩ := (sentconf_branches ts (by omega)).2.1 h2
        rw [hconf]
        constructor
        · have : (50 : ℚ) ≤ min (60 + (0.4 - (posCount ts : ℚ)
              / ((posCount ts + negCount ts : ℕ) : ℚ)) * 150) 98 := by
            apply le_min
            · nlinarith
            · norm_num
          exact_mod_cast le_round2_of_le (n := 50) (by exact_mod_cast this)
        · have : min (60 + (0.4 - (posCount ts : ℚ)
              / ((posCount ts + negCount ts : ℕ) : ℚ)) * 150) 98 ≤ (98 : ℚ) :=
            min_le_right _ _
          exact_mod_cast round2_le_of_le (n := 98) (by exact_mod_cast this)
      · obtain ⟨_, hconf⟩ := (sentconf_branches ts (by omega)).2.2
          (by rw [← not_lt]; exact h2) (by rw [← not_lt]; exact h1)
        rw [hconf]
        have habs : |(posCount ts : ℚ)
            / ((posCount ts + negCount ts : ℕ) : ℚ) - 0.5| ≤ 0.1 := by
          rw [abs_le]
          constructor
          · rw [not_lt] at h2
            linarith
          · rw [not_lt] at h1
            linarith
        have habs0 : (0 : ℚ) ≤ |(posCount ts : ℚ)
            / ((posCount ts + negCount ts : ℕ) : ℚ) - 0.5| := abs_nonneg _
        constructor
        · exact_mod_cast le_round2_of_le (n := 50) (by nlinarith)
        · exact_mod_cast round2_le_of_le (n := 98) (by nlinarith)
  · intro h
    exact (sentconf_total_zero ts h).2

theorem claim_C5_witness :
    50 ≤ (analyze_sentiment ["love"]).confidence ∧
      (analyze_sentiment ["love"]).confidence ≤ 98 :=
  (claim_C5 ["love"]).1 (by decide)

/-- Claim C3: with totalEmotionHits the sum of all per-emotion raw match counts,
the emotions mapping is empty when totalEmotionHits = 0; otherwise it contains
exactly the emotions with a nonzero raw count, mapped to
min((count / totalEmotionHits) * 100, 95); every value present is in (0, 95]
and no emotion ever appears with value 0. -/
theorem claim_C3 (ts : List String) :
    (totalHits ts = 0 → (analyze_sentiment ts).emotions = []) ∧
      (∀ e q, (e, q) ∈ (analyze_sentiment ts).emotions ↔
        0 < hitCount ts e ∧
          q = min ((hitCount ts e : ℚ) / (totalHits ts : ℚ) * 100) 95) ∧
      (∀ p ∈ (analyze_sentiment ts).emotions, 0 < p.2 ∧ p.2 ≤ 95) := by
  refine ⟨emotions_empty_of_no_hits ts, emotions_mem_iff ts, ?_⟩
  intro p hp
  obtain ⟨e, q⟩ := p
  obtain ⟨hhit, hq⟩ := (emotions_mem_iff ts e q).mp hp
  have htot : 0 < totalHits ts :=
    Nat.lt_of_lt_of_le hhit (hitCount_le_totalHits ts e)
  have htotQ : (0 : ℚ) < (totalHits ts : ℚ) := by exact_mod_cast htot
  have hhitQ : (0 : ℚ) < (hitCount ts e : ℚ) := by exact_mod_cast hhit
  constructor
  · show 0 < q
    rw [hq]
    apply lt_min
    · positivity
    · norm_num
  · show q ≤ 95
    rw [hq]
    exact min_le_right _ _

theorem claim_C3_witness :
    ("joy", (95 : ℚ)) ∈ (analyze_sentiment ["happy"]).emotions := by
  apply ((claim_C3 ["happy"]).2.1 "joy" 95).mpr
  have h1 : hitCount ["happy"] "joy" = 1 := by decide
  have h2 : totalHits ["happy"] = 1 := by decide
  rw [h1, h2]
  norm_num

/-- Claim C9: positiveScore equals the length of the positive keyword list and
negativeScore equals the length of the negative keyword list. -/
theorem claim_C9 (ts : List String) :
    (analyze_sentiment ts).positive_score
        = (analyze_sentiment ts).keywords_positive.length ∧
      (analyze_sentiment ts).negative_score
        = (analyze_sentiment ts).keywords_negative.length := by
  constructor
  · rw [analyze_positive_score, analyze_keywords_positive, posCount,
      List.countP_eq_length_filter]
  · rw [analyze_negative_score, analyze_keywords_negative, negCount,
      List.countP_eq_length_filter]

/-- Claim C6: score is order-independent for positiveScore, negativeScore and
the emotions mapping (stated as equality of membership), while the keyword
lists are exactly the matching tokens in input order. -/
theorem claim_C6 (ts ts' : List String) (h : ts.Perm ts') :
    (analyze_sentiment ts).positive_score = (analyze_sentiment ts').positive_score ∧
      (analyze_sentiment ts).negative_score = (analyze_sentiment ts').negative_score ∧
      (∀ e q, (e, q) ∈ (analyze_sentiment ts).emotions ↔
        (e, q) ∈ (analyze_sentiment ts').emotions) ∧
      (analyze_sentiment ts).keywords_positive
        = ts.filter (fun t => POSITIVE_WORDS.contains t) ∧
      (analyze_sentiment ts).keywords_negative
        = ts.filter (fun t => NEGATIVE_WORDS.contains t) := by
  have hpos : posCount ts = posCount ts' := h.countP_eq _
  have hneg : negCount ts = negCount ts' := h.countP_eq _
  have hhit : ∀ e, hitCount ts e = hitCount ts' e := fun e => h.countP_eq _
  have htot : totalHits ts = totalHits ts' := by
    rw [totalHits, totalHits]
    exact congrArg List.sum (List.map_congr_left fun p _ => hhit p.1)
  refine ⟨?_, ?_, ?_, analyze_keywords_positive ts, analyze_keywords_negative ts⟩
  · rw [analyze_positive_score, analyze_positive_score, hpos]
  · rw [analyze_negative_score, analyze_negative_score, hneg]
  · intro e q
    rw [emotions_mem_iff, emotions_mem_iff, hhit e, htot]

theorem claim_C6_witness :
    (analyze_sentiment ["happy", "sad"]).positive_score
        = (analyze_sentiment ["sad", "happy"]).positive_score ∧
      (analyze_sentiment ["happy", "sad"]).negative_score
        = (analyze_sentiment ["sad", "happy"]).negative_score :=
  ⟨(claim_C6 ["happy", "sad"] ["sad", "happy"] (by decide)).1,
    (claim_C6 ["happy", "sad"] ["sad", "happy"] (by decide)).2.1⟩

/-- Claim C4: both core operations are total on their documented domains:
preprocess of a whitespace-only (or empty) string returns no tokens and zero
counts, and score of the empty token sequence returns neutral sentiment,
confidence 50, empty emotions and empty keyword lists. -/
theorem claim_C4 (s : String) (h : ∀ c ∈ s.toList, pyIsSpace c = true) :
    ((preprocess_text s).tokens = [] ∧ (preprocess_text s).word_count = 0 ∧
        (preprocess_text s).token_count = 0) ∧
      ((analyze_sentiment []).sentiment = Sentiment.neutral ∧
        (analyze_sentiment []).confidence = 50 ∧
        (analyze_sentiment []).emotions = [] ∧
        (analyze_sentiment []).keywords_positive = [] ∧
        (analyze_sentiment []).keywords_negative = []) := by
  constructor
  · have hall : ∀ c ∈ removeSpecial (s.toList.map Char.toLower), pyIsSpace c = true := by
      intro c hc
      rcases (removeSpecial_chars hc).2 with h1 | h1
      · rw [h1]; decide
      · rcases List.mem_map.mp h1 with ⟨d, hd, hdc⟩
        have hsp := h d hd
        rw [← hdc, pyIsSpace_toLower hsp]
        exact hsp
    have hsplit : pySplit (stripWs (collapseAux false
        (removeSpecial (s.toList.map Char.toLower)))) = [] := by
      rw [pySplit_strip_collapse]
      exact splitAux_eq_nil _ hall
    refine ⟨?_, ?_, ?_⟩
    · show ((pySplit (stripWs (collapseAux false
          (removeSpecial (s.toList.map Char.toLower))))).map
            (fun w => String.mk w)).filter keepToken = []
      rw [hsplit]
      rfl
    · show ((pySplit (stripWs (collapseAux false
          (removeSpecial (s.toList.map Char.toLower))))).map
            (fun w => String.mk w)).length = 0
      rw [hsplit]
      rfl
    · show (((pySplit (stripWs (collapseAux false
          (removeSpecial (s.toList.map Char.toLower))))).map
            (fun w => String.mk w)).filter keepToken).length = 0
      rw [hsplit]
      rfl
  · refine ⟨(sentconf_total_zero [] (by decide)).1,
      (sentconf_total_zero [] (by decide)).2, ?_, rfl, rfl⟩
    exact emotions_empty_of_no_hits [] (by decide)

theorem claim_C4_witness :
    (preprocess_text " \t ").tokens = [] ∧ (preprocess_text " \t ").word_count = 0 ∧
      (preprocess_text " \t ").token_count = 0 :=
  (claim_C4 " \t " (by decide)).1

/-- Claim C7: on the input string of the spec scenario, preprocessing keeps
exactly the tokens love, amazing, product (dropping the stopwords), and scoring
them yields positiveScore 2, negativeScore 0, positive sentiment, confidence 98,
and an emotions mapping containing joy at its capped share 95. -/
theorem claim_C7 :
    (preprocess_text "I love this amazing product").tokens
        = ["love", "amazing", "product"] ∧
      (analyze_sentiment ["love", "amazing", "product"]).positive_score = 2 ∧
      (analyze_sentiment ["love", "amazing", "product"]).negative_score = 0 ∧
      (analyze_sentiment ["love", "amazing", "product"]).sentiment
        = Sentiment.positive ∧
      (analyze_sentiment ["love", "amazing", "product"]).confidence = 98 ∧
      ("joy", (95 : ℚ)) ∈ (analyze_sentiment ["love", "amazing", "product"]).emotions := by
  have hp : posCount ["love", "amazing", "product"] = 2 := by decide
  have hn : negCount ["love", "amazing", "product"] = 0 := by decide
  have hbr := (sentconf_branches ["love", "amazing", "product"] (by decide)).1
  rw [hp, hn] at hbr
  obtain ⟨hsent, hconf⟩ := hbr (by norm_num)
  refine ⟨by decide, ?_, ?_, hsent, ?_, ?_⟩
  · rw [analyze_positive_score, hp]
  · rw [analyze_negative_score, hn]
  · rw [hconf]
    have hmin : min (60 + ((((2 : ℕ)) : ℚ) / (((2 + 0 : ℕ)) : ℚ) - 0.6) * 150) 98
        = (98 : ℚ) := by
      norm_num
    rw [hmin]
    exact round2_of_int_mul (m := 9800) (by norm_num)
  · apply (emotions_mem_iff _ "joy" 95).mpr
    have h1 : hitCount ["love", "amazing", "product"] "joy" = 1 := by decide
    have h2 : totalHits ["love", "amazing", "product"] = 1 := by decide
    rw [h1, h2]
    norm_num

end SentimentAnalysis
